import Mathlib

/-!
Shallow embedding of the rlm document-segmentation core (src/rlm/core.py).

Python strings are modelled as lists of characters (`PyStr`); Python `int`
is modelled as `Int` wherever the source can produce a negative value
(offsets, rfind sentinel) and as `Nat` where it cannot.  Python slice and
`str.rfind` index normalization (negative indices count from the end of the
string and are clamped to `[0, len]`) is modelled explicitly, since the
source relies on it.
-/

abbrev PyStr := List Char

/-- Python slice/rfind index normalization: a negative index has the length
    added to it, and the result is clamped to `[0, len]`. -/
def pyIdx (n : Nat) (i : Int) : Nat :=
  if i < 0 then (max (i + n) 0).toNat else min i.toNat n

/-- Python slice `d[a:b]`. -/
def pySlice (d : PyStr) (a b : Int) : PyStr :=
  let lo := pyIdx d.length a
  let hi := pyIdx d.length b
  (d.drop lo).take (hi - lo)

/-- All start positions of occurrences of `sub` in the given suffix, whose
    first element sits at absolute position `k`.  Positions come out in
    strictly increasing order. -/
def occurs (sub : PyStr) : PyStr → Nat → List Nat
  | [], _ => []
  | c :: rest, k =>
    if sub.isPrefixOf (c :: rest) then k :: occurs sub rest (k + 1)
    else occurs sub rest (k + 1)

/-- Last element of a position list, or the Python "not found" sentinel -1. -/
def lastIdx : List Nat → Int
  | [] => -1
  | [i] => (i : Int)
  | _ :: i :: rest => lastIdx (i :: rest)

/-- Python `d.rfind(sub, a, b)`: the highest start position of an occurrence
    of `sub` lying entirely inside the normalized range `[a', b')`, else -1. -/
def pyRfind (d sub : PyStr) (a b : Int) : Int :=
  let lo := pyIdx d.length a
  let hi := pyIdx d.length b
  lastIdx ((occurs sub d 0).filter (fun i => decide (lo ≤ i ∧ i + sub.length ≤ hi)))

/-- Python `\s` / `str.split()` / `str.strip()` whitespace (ASCII range). -/
def isPySpace (c : Char) : Bool :=
  c == ' ' || c == '\t' || c == '\n' || c == '\r' || c == '\x0b' || c == '\x0c'

/-- Truthiness of Python `s.strip()`: the string has a non-whitespace char. -/
def hasNonWs (l : PyStr) : Bool := l.any (fun c => !(isPySpace c))

/-- Mirror of the `ChunkInfo` dataclass from src/rlm/core.py. -/
structure ChunkInfo where
  index : Nat
  start_char : Int
  end_char : Int
  content : PyStr
  token_estimate : Nat
deriving DecidableEq, Repr

/-- The natural-boundary refinement applied by `chunk_document` (core.py
    lines 167-177) when the provisional end `e0` is strictly below the
    document length: look back for the last newline in the rfind window,
    else the last period-plus-space, else keep `e0`. -/
def refineEnd (d : PyStr) (start e0 : Int) : Int :=
  if start < pyRfind d ['\n'] (e0 - 200) e0 then
    pyRfind d ['\n'] (e0 - 200) e0 + 1
  else if start < pyRfind d ['.', ' '] (e0 - 200) e0 then
    pyRfind d ['.', ' '] (e0 - 200) e0 + 2
  else e0

/-- The cut position `end` one iteration of `chunk_document` settles on:
    the provisional `min(start + chunk_size, len(document))`, refined by
    `refineEnd` when it is strictly below the document length. -/
def uniEnd (d : PyStr) (cs start : Int) : Int :=
  if min (start + cs) (d.length : Int) < (d.length : Int) then
    refineEnd d start (min (start + cs) (d.length : Int))
  else min (start + cs) (d.length : Int)

/-- The next loop start: `end - overlap` when the cut is strictly inside
    the document, else `end`. -/
def uniNext (d : PyStr) (ov e : Int) : Int :=
  if e < (d.length : Int) then e - ov else e

/-- The while-loop of `chunk_document` (core.py lines 160-191), with explicit
    fuel: `none` means the loop did not finish within `fuel` iterations. -/
def chunkLoop (d : PyStr) (cs ov : Int) : Nat → Int → Nat → Option (List ChunkInfo)
  | 0, _, _ => none
  | fuel + 1, start, idx =>
    if start < (d.length : Int) then
      match chunkLoop d cs ov fuel (uniNext d ov (uniEnd d cs start)) (idx + 1) with
      | none => none
      | some rest =>
        some (⟨idx, start, uniEnd d cs start, pySlice d start (uniEnd d cs start),
          (pySlice d start (uniEnd d cs start)).length / 4⟩ :: rest)
    else some []

/-- `chunk_document(document, chunk_size, overlap)` from src/rlm/core.py. -/
def chunk_document (fuel : Nat) (d : PyStr) (cs ov : Int) : Option (List ChunkInfo) :=
  chunkLoop d cs ov fuel 0 0

/-- Helper for the regex split `re.split(r'\n\s*\n', document)`: walks the
    document; at a newline whose following whitespace run contains another
    newline, the separator match extends to one past the last newline of
    that run (greedy `\s*` with backtracking), ending the current piece.
    The third argument counts separator characters still to be consumed
    after a match was recognized. -/
def pySplitBlankAux : PyStr → PyStr → Nat → List PyStr
  | [], cur, _ => [cur.reverse]
  | _ :: rest, cur, skip + 1 => pySplitBlankAux rest cur skip
  | c :: rest, cur, 0 =>
    if c = '\n' then
      if lastIdx (occurs ['\n'] (rest.takeWhile isPySpace) 0) < 0 then
        pySplitBlankAux rest (c :: cur) 0
      else
        cur.reverse :: pySplitBlankAux rest []
          ((lastIdx (occurs ['\n'] (rest.takeWhile isPySpace) 0)).toNat + 1)
    else pySplitBlankAux rest (c :: cur) 0

/-- `re.split(r'\n\s*\n', document)` from `chunk_by_paragraphs`. -/
def pySplitBlank (d : PyStr) : List PyStr := pySplitBlankAux d [] 0

/-- What `chunk_by_paragraphs` appends per paragraph: the paragraph followed
    by the re-synthesized separator. -/
def renderPara (u : PyStr) : PyStr := u ++ ['\n', '\n']

/-- The greedy packing loop shared by `chunk_by_paragraphs` and (after unit
    combination) `chunk_by_headers`: a unit is appended to the running block
    unless that would exceed `m` while the block is non-empty, in which case
    the block is emitted; offsets are cumulative emitted length; the final
    block is emitted only when it strips to something non-empty. -/
def packLoop (m : Int) (render : PyStr → PyStr) :
    List PyStr → PyStr → Nat → Nat → List ChunkInfo
  | [], cur, s, idx =>
    if hasNonWs cur then [⟨idx, s, (s : Int) + cur.length, cur, cur.length / 4⟩]
    else []
  | u :: us, cur, s, idx =>
    if (m : Int) < (cur.length : Int) + u.length ∧ cur ≠ [] then
      ⟨idx, s, (s : Int) + cur.length, cur, cur.length / 4⟩ ::
        packLoop m render us (render u) (s + cur.length) (idx + 1)
    else
      packLoop m render us (cur ++ render u) s idx

/-- `chunk_by_paragraphs(document, max_chunk_size)` from src/rlm/core.py. -/
def chunk_by_paragraphs (d : PyStr) (m : Int) : List ChunkInfo :=
  packLoop m renderPara (pySplitBlank d) [] 0 0

/-- Length of the leading run of hash marks. -/
def countHashes (l : PyStr) : Nat := (l.takeWhile (fun c => c == '#')).length

/-- Whether document position `i` is a line start (for multiline `^`). -/
def isLineStart (d : PyStr) (i : Nat) : Bool :=
  i == 0 || d[i-1]? == some '\n'

/-- Index of the first newline at or after `p`, or the document length. -/
def firstNlFrom (d : PyStr) (p : Nat) : Nat :=
  p + ((d.drop p).takeWhile (fun c => !(c == '\n'))).length

/-- Largest `t` in `[1, s]` such that the char at `q + t` exists and is not a
    newline: the backtracking of greedy `\s+` before `.+` in the header
    regex `^#{1,6}\s+.+$`. -/
def largestGoodT (d : PyStr) (q : Nat) : Nat → Option Nat
  | 0 => none
  | t + 1 =>
    match d[q + (t + 1)]? with
    | some c => if c = '\n' then largestGoodT d q t else some (t + 1)
    | none => largestGoodT d q t

/-- Match of `^#{1,6}\s+.+$` (re.MULTILINE) starting at position `i` (assumed
    to be a line start): `some e` gives the match end.  The hash run must
    have length 1..6, be followed by at least one whitespace char, and the
    greedy `\s+`/`.+` split must leave at least one non-newline char; the
    match then extends to the next newline or the end of the document. -/
def hdrMatchAt (d : PyStr) (i : Nat) : Option Nat :=
  let run := countHashes (d.drop i)
  if 1 ≤ run ∧ run ≤ 6 then
    let q := i + run
    let s := ((d.drop q).takeWhile isPySpace).length
    match largestGoodT d q s with
    | some t => some (firstNlFrom d (q + t))
    | none => none
  else none

/-- Leftmost-first non-overlapping scan for header matches: walks the
    document suffix starting at absolute position `pos`; the last argument
    counts positions still covered by the previous match. -/
def scanHdrsGo (d : PyStr) : PyStr → Nat → Nat → List (Nat × Nat)
  | [], _, _ => []
  | _ :: rest, pos, skip + 1 => scanHdrsGo d rest (pos + 1) skip
  | _ :: rest, pos, 0 =>
    if isLineStart d pos then
      match hdrMatchAt d pos with
      | some e => (pos, e) :: scanHdrsGo d rest (pos + 1) (e - (pos + 1))
      | none => scanHdrsGo d rest (pos + 1) 0
    else scanHdrsGo d rest (pos + 1) 0

/-- All matches of the header regex over the document, in order. -/
def scanHdrs (d : PyStr) : List (Nat × Nat) := scanHdrsGo d d 0 0

/-- `re.split` with a capturing group: alternate the text between matches
    with the matched headers themselves. -/
def splitByMatches (d : PyStr) : List (Nat × Nat) → Nat → List PyStr
  | [], prev => [d.drop prev]
  | (s, e) :: ms, prev =>
    ((d.drop prev).take (s - prev)) :: ((d.drop s).take (e - s)) ::
      splitByMatches d ms e

/-- The `sections` list of `chunk_by_headers`. -/
def hdrSections (d : PyStr) : List PyStr := splitByMatches d (scanHdrs d) 0

/-- The per-section check `re.match(r'^#{1,6}\s+', section)`. -/
def isHdrStart (sec : PyStr) : Bool :=
  let run := countHashes sec
  decide (1 ≤ run ∧ run ≤ 6) &&
    (match sec[run]? with
     | some c => isPySpace c
     | none => false)

/-- The `while i < len(sections)` loop of `chunk_by_headers` (core.py lines
    239-270): a section that looks like a header is combined with the
    following section, then packed exactly as in `chunk_by_paragraphs` but
    without synthesizing separators. -/
def hdrLoop (m : Int) : List PyStr → PyStr → Nat → Nat → List ChunkInfo
  | [], cur, s, idx =>
    if hasNonWs cur then [⟨idx, s, (s : Int) + cur.length, cur, cur.length / 4⟩]
    else []
  | sec :: rest, cur, s, idx =>
    if isHdrStart sec then
      match rest with
      | nxt :: rest2 =>
        if (m : Int) < (cur.length : Int) + (sec ++ nxt).length ∧ cur ≠ [] then
          ⟨idx, s, (s : Int) + cur.length, cur, cur.length / 4⟩ ::
            hdrLoop m rest2 (sec ++ nxt) (s + cur.length) (idx + 1)
        else hdrLoop m rest2 (cur ++ (sec ++ nxt)) s idx
      | [] =>
        if (m : Int) < (cur.length : Int) + sec.length ∧ cur ≠ [] then
          ⟨idx, s, (s : Int) + cur.length, cur, cur.length / 4⟩ ::
            hdrLoop m [] sec (s + cur.length) (idx + 1)
        else hdrLoop m [] (cur ++ sec) s idx
    else
      if (m : Int) < (cur.length : Int) + sec.length ∧ cur ≠ [] then
        ⟨idx, s, (s : Int) + cur.length, cur, cur.length / 4⟩ ::
          hdrLoop m rest sec (s + cur.length) (idx + 1)
      else hdrLoop m rest (cur ++ sec) s idx

/-- `chunk_by_headers(document, max_chunk_size)` from src/rlm/core.py. -/
def chunk_by_headers (d : PyStr) (m : Int) : List ChunkInfo :=
  hdrLoop m (hdrSections d) [] 0 0

/-- The header-with-body unit list: each header section is glued to the
    section that follows it, as the `i += 2` walk of `chunk_by_headers`
    does.  Used to relate `hdrLoop` to the shared packing loop. -/
def combineSections : List PyStr → List PyStr
  | [] => []
  | sec :: rest =>
    if isHdrStart sec then
      match rest with
      | nxt :: rest2 => (sec ++ nxt) :: combineSections rest2
      | [] => [sec]
    else sec :: combineSections rest

/-- Python `document.split('\n')`. -/
def splitNlAux : PyStr → PyStr → List PyStr
  | [], cur => [cur.reverse]
  | c :: rest, cur =>
    if c = '\n' then cur.reverse :: splitNlAux rest []
    else splitNlAux rest (c :: cur)

/-- Python `document.split()` (split on whitespace runs, no empty pieces);
    the accumulator holds the current word reversed. -/
def pyWordsAux : PyStr → PyStr → List PyStr
  | [], cur => if cur = [] then [] else [cur.reverse]
  | c :: rest, cur =>
    if isPySpace c then
      if cur = [] then pyWordsAux rest []
      else cur.reverse :: pyWordsAux rest []
    else pyWordsAux rest (c :: cur)

/-- The strings found by `re.findall(r'^#{1,6}\s+.+$', document, re.MULTILINE)`. -/
def hdrStrings (d : PyStr) : List PyStr :=
  (scanHdrs d).map (fun p => (d.drop p.1).take (p.2 - p.1))

/-- The metadata dictionary built by `create_metadata` (core.py 125-141). -/
structure Metadata where
  char_count : Nat
  token_estimate : Nat
  line_count : Nat
  word_count : Nat
  header_count : Nat
  headers_preview : List PyStr
  first_500_chars : PyStr
  last_500_chars : PyStr
deriving DecidableEq, Repr

/-- `create_metadata(document)` from src/rlm/core.py. -/
def create_metadata (d : PyStr) : Metadata where
  char_count := d.length
  token_estimate := d.length / 4
  line_count := (splitNlAux d []).length
  word_count := (pyWordsAux d []).length
  header_count := (hdrStrings d).length
  headers_preview := (hdrStrings d).take 10
  first_500_chars := pySlice d 0 500
  last_500_chars := if 500 < d.length then pySlice d (-500) d.length else d

/-- One match dictionary built by `RLMContext.search` (core.py 44-55);
    captured groups are not modelled (no claim concerns them). -/
structure MatchInfo where
  matched : PyStr
  mstart : Nat
  mend : Nat
  context : PyStr
deriving DecidableEq, Repr

/-- The dictionary `RLMContext.search` builds for one regex match spanning
    `[s, e)`: note the explicit `max(0, start-50)` and the slice clamping
    at the right end. -/
def mkMatch (d : PyStr) (s e : Nat) : MatchInfo :=
  ⟨pySlice d s e, s, e, pySlice d (max 0 ((s : Int) - 50)) ((e : Int) + 50)⟩

/-- `RLMContext.search`, with the stdlib regex engine abstracted: it is
    handed the list of match spans the engine produced (each within the
    document) and builds the result dictionaries. -/
def searchModel (d : PyStr) (ms : List (Nat × Nat)) : List MatchInfo :=
  ms.map (fun p => mkMatch d p.1 p.2)

/-- `RLMContext.chunk` (core.py 61-82): dispatch on the strategy name; the
    only raise in the source is the unknown-strategy `ValueError`.  `none`
    means the uniform loop did not terminate within the supplied fuel. -/
def rlmChunk (fuel : Nat) (d : PyStr) (chunkSize overlap : Int) (strategy : String) :
    Option (Except String (List ChunkInfo)) :=
  if strategy = "uniform" then
    match chunk_document fuel d chunkSize overlap with
    | none => none
    | some l => some (Except.ok l)
  else if strategy = "paragraph" then
    some (Except.ok (chunk_by_paragraphs d chunkSize))
  else if strategy = "semantic" then
    some (Except.ok (chunk_by_headers d chunkSize))
  else some (Except.error ("Unknown chunking strategy: " ++ strategy))

/-- The greatest `i ≤ n` satisfying `P`, when one exists. -/
def greatestHit (P : Nat → Prop) [DecidablePred P] (n : Nat) : Option Nat :=
  if P (Nat.findGreatest P n) then some (Nat.findGreatest P n) else none

/-- Modelled from the spec: the boundary policy exactly as the claim words
    it — within the window `[p-200, p)` of the document, prefer one past the
    last line break strictly after the segment start, else one past the
    space of the last period-plus-space there, else cut at `p`. -/
def specWindowEnd (d : PyStr) (start p : Int) : Int :=
  match greatestHit
      (fun i => d[i]? = some '\n' ∧ p - 200 ≤ (i : Int) ∧ (i : Int) + 1 ≤ p ∧
        start < (i : Int)) d.length with
  | some i => (i : Int) + 1
  | none =>
    match greatestHit
        (fun i => d[i]? = some '.' ∧ d[i+1]? = some ' ' ∧ p - 200 ≤ (i : Int) ∧
          (i : Int) + 2 ≤ p ∧ start < (i : Int)) d.length with
    | some i => (i : Int) + 2
    | none => p

/-- Modelled from the spec as amended: the same policy, but the window's
    bounds follow Python's rfind index normalization (`pyIdx`), so for
    `p < 200` the lower bound wraps to `max(0, len + p - 200)` instead
    of clamping to 0. -/
def specRefineAmended (d : PyStr) (start p : Int) : Int :=
  match greatestHit
      (fun i => d[i]? = some '\n' ∧ pyIdx d.length (p - 200) ≤ i ∧
        i + 1 ≤ pyIdx d.length p ∧ start < (i : Int)) d.length with
  | some i => (i : Int) + 1
  | none =>
    match greatestHit
        (fun i => d[i]? = some '.' ∧ d[i+1]? = some ' ' ∧
          pyIdx d.length (p - 200) ≤ i ∧ i + 2 ≤ pyIdx d.length p ∧
          start < (i : Int)) d.length with
    | some i => (i : Int) + 2
    | none => p

/-- Concatenation of the rendered units of one packing block. -/
def renderAll (render : PyStr → PyStr) (g : List PyStr) : PyStr :=
  (g.map render).flatten

/-- The same greedy packing as `packLoop`, but recording which consecutive
    units end up in each accumulated block; the trailing element is the
    final (possibly dropped) block. -/
def packGroups (m : Int) (render : PyStr → PyStr) :
    List PyStr → List PyStr → List (List PyStr)
  | [], g => [g]
  | u :: us, g =>
    if (m : Int) < ((renderAll render g).length : Int) + u.length ∧
        renderAll render g ≠ [] then
      g :: packGroups m render us [u]
    else packGroups m render us (g ++ [u])

/-- The segment contents that a block list gives rise to: every block is
    emitted verbatim except the final one, which is dropped when it strips
    to nothing. -/
def emitted (render : PyStr → PyStr) : List (List PyStr) → List PyStr
  | [] => []
  | [g] => if hasNonWs (renderAll render g) then [renderAll render g] else []
  | g :: g2 :: gs => renderAll render g :: emitted render (g2 :: gs)

set_option maxRecDepth 100000

/-! Concrete documents used by counterexamples and failing inputs. -/

/-- A 1000-character document of repeated A, no newlines or periods. -/
def docAAA : PyStr := List.replicate 1000 'A'

/-- One 201-character block: a letter, a newline, then 199 letters. -/
def blkAB : PyStr := 'a' :: '\n' :: List.replicate 199 'b'

/-- A 603-character document on which the uniform strategy never terminates
    for chunk_size 201 and overlap 50. -/
def docLoop : PyStr := blkAB ++ blkAB ++ blkAB

/-- A 152-character document with a newline at position 1 only. -/
def docWin : PyStr := 'a' :: '\n' :: List.replicate 150 'b'

/-- C7: on 1000 repetitions of "A" with chunk_size 300 and overlap 50 the
    uniform strategy produces exactly the four segments [0,300), [250,550),
    [500,800), [750,1000), in order. -/
theorem c7_uniform_hard_cuts :
    (chunk_document 10 docAAA 300 50).map (fun l => l.map fun c => (c.start_char, c.end_char)) =
      some [((0 : Int), (300 : Int)), (250, 550), (500, 800), (750, 1000)] := by
  rfl

/-- C9: metadata extraction is a pure function of the document, hence
    deterministic and idempotent, and its token estimate is the character
    count integer-divided by 4. -/
theorem c9_metadata_idempotent (d : PyStr) :
    create_metadata d = create_metadata d ∧
      (create_metadata d).token_estimate = (create_metadata d).char_count / 4 :=
  ⟨rfl, rfl⟩

/-- C1 counterexample: with chunk_size 0 (non-positive) under the paragraph
    strategy, the chunk dispatch returns a segment list and raises nothing,
    contradicting the claim that chunk_size <= 0 raises InvalidParameters
    under every strategy. -/
theorem c1_ce_no_error_nonpositive_size :
    rlmChunk 5 ['a'] 0 0 "paragraph" =
      some (Except.ok [⟨0, 0, 3, ['a', '\n', '\n'], 0⟩]) := by
  rfl

/-- C3 counterexample: on the one-character document "a" the paragraph
    strategy emits a segment with end offset 3 > 1 = len(document) whose
    content is not the document slice [0,3). -/
theorem c3_ce_paragraph_offsets :
    chunk_by_paragraphs ['a'] 50000 = [⟨0, 0, 3, ['a', '\n', '\n'], 0⟩] ∧
      ¬ ((3 : Int) ≤ (['a'] : PyStr).length) ∧
      ['a', '\n', '\n'] ≠ pySlice ['a'] 0 3 := by
  exact ⟨rfl, by decide, by decide⟩

/-- C6 counterexample: the non-empty all-whitespace document " " splits into
    the single structural unit " ", yet the paragraph strategy emits no
    segment at all, so that unit lies in no segment. -/
theorem c6_ce_dropped_unit :
    pySplitBlank [' '] = [[' ']] ∧ chunk_by_paragraphs [' '] 10 = [] :=
  ⟨rfl, rfl⟩

/-- C10 counterexample: the all-whitespace document " \n\n " with max size 1
    makes the paragraph strategy emit a (whitespace-only) segment mid-loop,
    so the output is not empty. -/
theorem c10_ce_ws_doc_not_empty :
    ([' ', '\n', '\n', ' '] : PyStr).all isPySpace = true ∧
      chunk_by_paragraphs [' ', '\n', '\n', ' '] 1 =
        [⟨0, 0, 3, [' ', '\n', '\n'], 0⟩] :=
  ⟨rfl, rfl⟩

/-- C5 counterexample: for the 152-character document with its only newline
    at position 1, chunk_size 100, overlap 0, the claim's window [p-200, p)
    would cut after the newline (end 2), but the code's first cut is the
    hard cut at 100: Python's rfind turns the negative lower bound -100
    into position 52, excluding the newline. -/
theorem c5_ce_window_normalization :
    (chunk_document 10 docWin 100 0).map (fun l => l.map fun c => (c.start_char, c.end_char)) =
        some [((0 : Int), (100 : Int)), (100, 152)] ∧
      specWindowEnd docWin 0 100 = 2 ∧ refineEnd docWin 0 100 = 100 := by
  refine ⟨by rfl, by decide, by rfl⟩

/-- One iteration of the uniform loop on `docLoop` from start -50: the rfind
    window is empty, the -1 sentinel exceeds the negative start, the end
    becomes 0 and the next start is again -50. -/
theorem docLoop_step_fixed (n : Nat) (i : Nat) :
    chunkLoop docLoop 201 50 (n + 1) (-50) i =
      match chunkLoop docLoop 201 50 n (-50) (i + 1) with
      | none => none
      | some rest => some (⟨i, -50, 0, [], 0⟩ :: rest) := by
  rfl

/-- The uniform loop on `docLoop` never leaves start -50. -/
theorem docLoop_fixed_none : ∀ (n : Nat) (i : Nat),
    chunkLoop docLoop 201 50 n (-50) i = none := by
  intro n
  induction n with
  | zero => intro i; rfl
  | succ k ih =>
    intro i
    rw [docLoop_step_fixed k i, ih (i + 1)]

/-- Second iteration on `docLoop`: from start -48 the loop moves to -50. -/
theorem docLoop_step_two (n : Nat) (i : Nat) :
    chunkLoop docLoop 201 50 (n + 1) (-48) i =
      match chunkLoop docLoop 201 50 n (-50) (i + 1) with
      | none => none
      | some rest => some (⟨i, -48, 0, [], 0⟩ :: rest) := by
  rfl

/-- First iteration on `docLoop`: from start 0 the newline at position 1 is
    inside the lookback window, so the cut is end 2 and the next start is
    2 - 50 = -48. -/
theorem docLoop_step_one (n : Nat) (i : Nat) :
    chunkLoop docLoop 201 50 (n + 1) 0 i =
      match chunkLoop docLoop 201 50 n (-48) (i + 1) with
      | none => none
      | some rest => some (⟨i, 0, 2, ['a', '\n'], 0⟩ :: rest) := by
  rfl

/-- C4: the uniform chunking loop does not terminate for every valid
    parameter pair: on `docLoop` with chunk_size 201 > overlap 50 > 0 the
    loop never finishes, whatever fuel it is given. -/
theorem c4_uniform_loop_diverges : ∀ fuel : Nat,
    chunk_document fuel docLoop 201 50 = none := by
  intro fuel
  cases fuel with
  | zero => rfl
  | succ k =>
    show chunkLoop docLoop 201 50 (k + 1) 0 0 = none
    rw [docLoop_step_one k 0]
    cases k with
    | zero => rfl
    | succ k2 =>
      rw [docLoop_step_two k2 1, docLoop_fixed_none k2 2]

/-! Facts about the Python-string primitives. -/

theorem pyIdx_le (n : Nat) (i : Int) : pyIdx n i ≤ n := by
  unfold pyIdx
  split
  · omega
  · exact Nat.min_le_right _ _

theorem lastIdx_cases : ∀ l : List Nat,
    lastIdx l = -1 ∨ ∃ m, m ∈ l ∧ lastIdx l = (m : Int) := by
  intro l
  induction l with
  | nil => left; rfl
  | cons a t ih =>
    cases t with
    | nil => right; exact ⟨a, List.mem_cons_self a [], rfl⟩
    | cons b t2 =>
      have hstep : lastIdx (a :: b :: t2) = lastIdx (b :: t2) := rfl
      rcases ih with h | ⟨m, hm, he⟩
      · left; rw [hstep]; exact h
      · right; exact ⟨m, List.mem_cons_of_mem a hm, by rw [hstep]; exact he⟩

theorem lastIdx_max : ∀ l : List Nat, l.Pairwise (· < ·) →
    ∀ x ∈ l, (x : Int) ≤ lastIdx l := by
  intro l
  induction l with
  | nil => intro _ x hx; simp at hx
  | cons a t ih =>
    intro hp x hx
    have hpc := List.pairwise_cons.mp hp
    have hpt := hpc.2
    have hlt := hpc.1
    cases t with
    | nil =>
      rcases List.mem_cons.mp hx with rfl | h
      · exact le_refl _
      · simp at h
    | cons b t2 =>
      have hstep : lastIdx (a :: b :: t2) = lastIdx (b :: t2) := rfl
      rw [hstep]
      rcases List.mem_cons.mp hx with rfl | h
      · have hb : (b : Int) ≤ lastIdx (b :: t2) :=
          ih hpt b (List.mem_cons_self b t2)
        have : x < b := hlt b (List.mem_cons_self b t2)
        omega
      · exact ih hpt x h

theorem occurs_mem : ∀ (sub l : PyStr) (k x : Nat), x ∈ occurs sub l k →
    k ≤ x ∧ sub.isPrefixOf (l.drop (x - k)) = true := by
  intro sub l
  induction l with
  | nil => intro k x h; simp [occurs] at h
  | cons c rest ih =>
    intro k x h
    rw [occurs] at h
    by_cases hpre : sub.isPrefixOf (c :: rest) = true
    · rw [if_pos hpre] at h
      rcases List.mem_cons.mp h with rfl | h2
      · exact ⟨le_refl x, by rw [Nat.sub_self, List.drop_zero]; exact hpre⟩
      · have h3 := ih (k + 1) x h2
        refine ⟨by omega, ?_⟩
        have hx : x - k = (x - (k + 1)) + 1 := by omega
        rw [hx, List.drop_succ_cons]
        exact h3.2
    · rw [if_neg hpre] at h
      have h3 := ih (k + 1) x h
      refine ⟨by omega, ?_⟩
      have hx : x - k = (x - (k + 1)) + 1 := by omega
      rw [hx, List.drop_succ_cons]
      exact h3.2

theorem occurs_complete : ∀ (sub l : PyStr) (k x : Nat), sub ≠ [] → k ≤ x →
    sub.isPrefixOf (l.drop (x - k)) = true → x ∈ occurs sub l k := by
  intro sub l
  induction l with
  | nil =>
    intro k x hsub _ hpre
    rw [List.drop_nil] at hpre
    cases sub with
    | nil => exact absurd rfl hsub
    | cons a s => simp [List.isPrefixOf] at hpre
  | cons c rest ih =>
    intro k x hsub hkx hpre
    rw [occurs]
    rcases Nat.eq_or_lt_of_le hkx with rfl | hlt
    · rw [Nat.sub_self, List.drop_zero] at hpre
      rw [if_pos hpre]
      exact List.mem_cons_self _ _
    · have hx : x - k = (x - (k + 1)) + 1 := by omega
      rw [hx, List.drop_succ_cons] at hpre
      have hmem := ih (k + 1) x hsub (by omega) hpre
      split
      · exact List.mem_cons_of_mem _ hmem
      · exact hmem

theorem occurs_pairwise : ∀ (sub l : PyStr) (k : Nat),
    (occurs sub l k).Pairwise (· < ·) := by
  intro sub l
  induction l with
  | nil => intro k; simp [occurs]
  | cons c rest ih =>
    intro k
    rw [occurs]
    split
    · exact List.Pairwise.cons
        (fun x hx => by have := (occurs_mem sub rest (k + 1) x hx).1; omega)
        (ih (k + 1))
    · exact ih (k + 1)

theorem pyRfind_neg_or (d sub : PyStr) (a b : Int) :
    pyRfind d sub a b = -1 ∨
      ∃ i : Nat, pyRfind d sub a b = (i : Int) ∧ pyIdx d.length a ≤ i ∧
        i + sub.length ≤ pyIdx d.length b ∧ sub.isPrefixOf (d.drop i) = true := by
  unfold pyRfind
  rcases lastIdx_cases ((occurs sub d 0).filter
      (fun i => decide (pyIdx d.length a ≤ i ∧ i + sub.length ≤ pyIdx d.length b))) with
    h | ⟨m, hm, he⟩
  · left; exact h
  · right
    have hmf := List.mem_filter.mp hm
    have hcond := of_decide_eq_true hmf.2
    have hocc := occurs_mem sub d 0 m hmf.1
    refine ⟨m, he, hcond.1, hcond.2, ?_⟩
    simpa using hocc.2

/-- Every position satisfying the in-window occurrence conditions is at most
    the rfind result. -/
theorem pyRfind_ge (d sub : PyStr) (a b : Int) (j : Nat)
    (hja : pyIdx d.length a ≤ j) (hjb : j + sub.length ≤ pyIdx d.length b)
    (hpre : sub.isPrefixOf (d.drop j) = true) (hsub : sub ≠ []) :
    (j : Int) ≤ pyRfind d sub a b := by
  unfold pyRfind
  apply lastIdx_max
  · exact List.Pairwise.filter _ (occurs_pairwise sub d 0)
  · refine List.mem_filter.mpr ⟨?_, ?_⟩
    · exact occurs_complete sub d 0 j hsub (Nat.zero_le j) (by simpa using hpre)
    · exact decide_eq_true ⟨hja, hjb⟩

/-! Bounds on the uniform-strategy cut refinement. -/

theorem refineEnd_le (d : PyStr) (start e0 : Int) (h : e0 ≤ (d.length : Int)) :
    refineEnd d start e0 ≤ (d.length : Int) := by
  have hn := pyIdx_le d.length e0
  unfold refineEnd
  rcases pyRfind_neg_or d ['\n'] (e0 - 200) e0 with hnl | ⟨i, hi, _, hib, _⟩
  · rw [hnl]
    rcases pyRfind_neg_or d ['.', ' '] (e0 - 200) e0 with hp | ⟨j, hj, _, hjb, _⟩
    · rw [hp]
      split_ifs <;> omega
    · rw [hj]
      simp only [List.length_cons, List.length_nil] at hjb
      split_ifs <;> omega
  · rw [hi]
    simp only [List.length_cons, List.length_nil] at hib
    rcases pyRfind_neg_or d ['.', ' '] (e0 - 200) e0 with hp | ⟨j, hj, _, hjb, _⟩
    · rw [hp]
      split_ifs <;> omega
    · rw [hj]
      simp only [List.length_cons, List.length_nil] at hjb
      split_ifs <;> omega

theorem refineEnd_gt (d : PyStr) (start e0 : Int) (h : start < e0) :
    start < refineEnd d start e0 := by
  unfold refineEnd
  split_ifs with h1 h2 <;> omega

theorem uniEnd_gt (d : PyStr) (cs start : Int) (hcs : 0 < cs)
    (hst : start < (d.length : Int)) : start < uniEnd d cs start := by
  unfold uniEnd
  split_ifs with h1
  · exact refineEnd_gt _ _ _ (lt_min (by omega) hst)
  · exact lt_min (by omega) hst

theorem uniEnd_le (d : PyStr) (cs start : Int) :
    uniEnd d cs start ≤ (d.length : Int) := by
  unfold uniEnd
  split_ifs with h1
  · exact refineEnd_le _ _ _ (min_le_right _ _)
  · exact min_le_right _ _

theorem uniNext_le (d : PyStr) (ov e : Int) (hov : 0 ≤ ov) :
    uniNext d ov e ≤ e := by
  unfold uniNext
  split_ifs <;> omega

theorem uniNext_at_len (d : PyStr) (ov e : Int) (hov : 0 ≤ ov)
    (hle : e ≤ (d.length : Int)) (h : ¬ uniNext d ov e < (d.length : Int)) :
    e = (d.length : Int) := by
  unfold uniNext at h
  split_ifs at h <;> omega

/-- Invariant of the uniform chunking loop: whenever the loop terminates,
    every emitted segment starts strictly before it ends, ends within the
    document, carries the exact Python slice as content with the quarter
    token estimate; the head starts at the loop start, adjacent segments
    leave no gap, and the last segment ends at the document length. -/
theorem chunkLoop_invariant (d : PyStr) (cs ov : Int) (hcs : 0 < cs) (hov : 0 ≤ ov) :
    ∀ (fuel : Nat) (start : Int) (idx : Nat) (l : List ChunkInfo),
      chunkLoop d cs ov fuel start idx = some l →
      (l = [] ↔ ¬ start < (d.length : Int)) ∧
      (∀ c ∈ l, c.start_char < c.end_char ∧ c.end_char ≤ (d.length : Int) ∧
        c.content = pySlice d c.start_char c.end_char ∧
        c.token_estimate = c.content.length / 4) ∧
      (∀ c l2, l = c :: l2 → c.start_char = start) ∧
      List.Chain' (fun a b => b.start_char ≤ a.end_char) l ∧
      (∀ c, l.getLast? = some c → c.end_char = (d.length : Int)) := by
  intro fuel
  induction fuel with
  | zero => intro start idx l h; simp [chunkLoop] at h
  | succ fuel ih =>
    intro start idx l h
    rw [chunkLoop] at h
    by_cases hst : start < (d.length : Int)
    · rw [if_pos hst] at h
      cases hrec : chunkLoop d cs ov fuel (uniNext d ov (uniEnd d cs start)) (idx + 1) with
      | none => rw [hrec] at h; exact absurd h (by simp)
      | some rest =>
        rw [hrec] at h
        have hl := (Option.some.inj h).symm
        subst hl
        obtain ⟨ih1, ih2, ih3, ih4, ih5⟩ := ih _ _ _ hrec
        have hgt : start < uniEnd d cs start := uniEnd_gt d cs start hcs hst
        have hle : uniEnd d cs start ≤ (d.length : Int) := uniEnd_le d cs start
        refine ⟨by simp [hst], ?_, ?_, ?_, ?_⟩
        · intro c hc
          rcases List.mem_cons.mp hc with rfl | hc2
          · exact ⟨hgt, hle, rfl, rfl⟩
          · exact ih2 c hc2
        · intro c l2 hcl
          have := (List.cons.injEq _ _ _ _).mp hcl
          rw [← this.1]
        · rw [List.chain'_cons']
          refine ⟨?_, ih4⟩
          intro y hy
          cases rest with
          | nil => simp at hy
          | cons c2 l2 =>
            have hy2 : y = c2 := by
              have hcy : c2 = y := by simpa using hy
              exact hcy.symm
            subst hy2
            have h2 := ih3 y l2 rfl
            rw [h2]
            exact uniNext_le d ov (uniEnd d cs start) hov
        · intro c hc
          cases rest with
          | nil =>
            simp only [List.getLast?_singleton, Option.some.injEq] at hc
            subst hc
            have hnl : ¬ uniNext d ov (uniEnd d cs start) < (d.length : Int) := by
              intro hcon
              have := ih1.mp rfl
              exact this hcon
            exact uniNext_at_len d ov _ hov hle hnl
          | cons c2 l2 =>
            rw [List.getLast?_cons_cons] at hc
            exact ih5 c hc
    · rw [if_neg hst] at h
      have hl := (Option.some.inj h).symm
      subst hl
      refine ⟨by simp [hst], by simp, by simp, by simp, by simp⟩

/-- C2: for every document and valid parameter pair (chunk_size > 0,
    0 <= overlap < chunk_size), whenever the uniform strategy returns, its
    segments leave no gaps (each next segment starts no later than the
    previous one ends), the first segment starts at offset 0, the last
    segment ends at len(document), and a non-empty document yields at least
    one segment. -/
theorem c2_uniform_coverage (d : PyStr) (cs ov : Int) (fuel : Nat) (l : List ChunkInfo)
    (hcs : 0 < cs) (hov : 0 ≤ ov) (_hvalid : ov < cs)
    (h : chunk_document fuel d cs ov = some l) :
    List.Chain' (fun a b => b.start_char ≤ a.end_char) l ∧
      (∀ c l2, l = c :: l2 → c.start_char = 0) ∧
      (∀ c, l.getLast? = some c → c.end_char = (d.length : Int)) ∧
      (d ≠ [] → l ≠ []) := by
  obtain ⟨h1, _, h3, h4, h5⟩ := chunkLoop_invariant d cs ov hcs hov fuel 0 0 l h
  refine ⟨h4, h3, h5, ?_⟩
  intro hd hl
  have hlen : 0 < d.length := List.length_pos.mpr hd
  have := h1.mp hl
  omega

/-- C2 witness: the concrete run on "ab" with chunk_size 1, overlap 0. -/
theorem c2_uniform_coverage_witness :
    List.Chain' (fun a b : ChunkInfo => b.start_char ≤ a.end_char)
        [⟨0, 0, 1, ['a'], 0⟩, ⟨1, 1, 2, ['b'], 0⟩] ∧
      (∀ c l2, ([⟨0, 0, 1, ['a'], 0⟩, ⟨1, 1, 2, ['b'], 0⟩] : List ChunkInfo) = c :: l2 →
        c.start_char = 0) ∧
      (∀ c, ([⟨0, 0, 1, ['a'], 0⟩, ⟨1, 1, 2, ['b'], 0⟩] : List ChunkInfo).getLast? = some c →
        c.end_char = ((['a', 'b'] : PyStr).length : Int)) ∧
      ((['a', 'b'] : PyStr) ≠ [] → ([⟨0, 0, 1, ['a'], 0⟩, ⟨1, 1, 2, ['b'], 0⟩] : List ChunkInfo) ≠ []) :=
  c2_uniform_coverage ['a', 'b'] 1 0 5 [⟨0, 0, 1, ['a'], 0⟩, ⟨1, 1, 2, ['b'], 0⟩]
    (by decide) (by decide) (by decide) (by rfl)

theorem hasNonWs_ne_nil (l : PyStr) (h : hasNonWs l = true) : l ≠ [] := by
  intro hl
  subst hl
  simp [hasNonWs] at h

/-- Per-segment facts of the shared packing loop: offsets are non-negative
    (they are cumulative emitted length), each segment is non-empty, its end
    offset is its start plus its content length, and the token estimate is a
    quarter of the content length. -/
theorem packLoop_chunks (m : Int) (render : PyStr → PyStr) :
    ∀ (us : List PyStr) (cur : PyStr) (s idx : Nat),
      ∀ c ∈ packLoop m render us cur s idx,
        0 ≤ c.start_char ∧ c.start_char < c.end_char ∧
          c.end_char = c.start_char + c.content.length ∧
          c.token_estimate = c.content.length / 4 := by
  intro us
  induction us with
  | nil =>
    intro cur s idx c hc
    rw [packLoop] at hc
    split at hc
    · rcases List.mem_singleton.mp hc with rfl
      have hcur := hasNonWs_ne_nil cur (by assumption)
      have hpos : 0 < cur.length := List.length_pos.mpr hcur
      refine ⟨by positivity, by simp; omega, by simp, rfl⟩
    · simp at hc
  | cons u us ih =>
    intro cur s idx c hc
    rw [packLoop] at hc
    split at hc
    · rcases List.mem_cons.mp hc with rfl | hc2
      · rename_i hcond
        have hcur := hcond.2
        have hpos : 0 < cur.length := List.length_pos.mpr hcur
        refine ⟨by positivity, by simp; omega, by simp, rfl⟩
      · exact ih _ _ _ c hc2
    · exact ih _ _ _ c hc

/-- The explicit `i += 2` walk of `chunk_by_headers` is the shared packing
    loop applied to the combined header-plus-body unit list. -/
theorem hdrLoop_eq_pack (m : Int) :
    ∀ (n : Nat) (secs : List PyStr), secs.length ≤ n → ∀ (cur : PyStr) (s idx : Nat),
      hdrLoop m secs cur s idx = packLoop m id (combineSections secs) cur s idx := by
  intro n
  induction n with
  | zero =>
    intro secs hlen cur s idx
    have : secs = [] := List.length_eq_zero.mp (Nat.le_zero.mp hlen)
    subst this
    rfl
  | succ k ih =>
    intro secs hlen cur s idx
    match secs with
    | [] => rfl
    | sec :: rest =>
      rw [hdrLoop.eq_def, combineSections.eq_def]
      dsimp only []
      by_cases hhdr : isHdrStart sec = true
      · rw [if_pos hhdr, if_pos hhdr]
        cases rest with
        | nil =>
          rw [packLoop]
          simp only [id]
          split_ifs with hcond
          · rw [ih [] (by simp) sec (s + cur.length) (idx + 1)]
            rfl
          · rw [ih [] (by simp) (cur ++ sec) s idx]
            rfl
        | cons nxt rest2 =>
          rw [packLoop]
          simp only [id]
          have hlen2 : rest2.length ≤ k := by
            simp only [List.length_cons] at hlen
            omega
          split_ifs with hcond
          · rw [ih rest2 hlen2 (sec ++ nxt) (s + cur.length) (idx + 1)]
          · rw [ih rest2 hlen2 (cur ++ (sec ++ nxt)) s idx]
      · rw [if_neg hhdr, if_neg hhdr]
        rw [packLoop]
        simp only [id]
        have hlen2 : rest.length ≤ k := by
          simp only [List.length_cons] at hlen
          omega
        split_ifs with hcond
        · rw [ih rest hlen2 sec (s + cur.length) (idx + 1)]
        · rw [ih rest hlen2 (cur ++ sec) s idx]

/-- C3 as amended: every segment of every strategy satisfies
    start_offset < end_offset and token_estimate = len(content) // 4; uniform
    segments also satisfy end_offset <= len(document) and content equal to
    the Python slice document[start:end]; paragraph and semantic segments
    also satisfy 0 <= start_offset and end_offset = start_offset +
    len(content) (their offsets count cumulative emitted length rather than
    document positions, which the counterexample shows can exceed the
    document length). -/
theorem c3_segment_invariants_amended :
    (∀ (d : PyStr) (cs ov : Int) (fuel : Nat) (l : List ChunkInfo), 0 < cs → 0 ≤ ov →
      chunk_document fuel d cs ov = some l →
      ∀ c ∈ l, c.start_char < c.end_char ∧ c.end_char ≤ (d.length : Int) ∧
        c.content = pySlice d c.start_char c.end_char ∧
        c.token_estimate = c.content.length / 4) ∧
    (∀ (d : PyStr) (m : Int), ∀ c ∈ chunk_by_paragraphs d m,
      0 ≤ c.start_char ∧ c.start_char < c.end_char ∧
        c.end_char = c.start_char + c.content.length ∧
        c.token_estimate = c.content.length / 4) ∧
    (∀ (d : PyStr) (m : Int), ∀ c ∈ chunk_by_headers d m,
      0 ≤ c.start_char ∧ c.start_char < c.end_char ∧
        c.end_char = c.start_char + c.content.length ∧
        c.token_estimate = c.content.length / 4) := by
  refine ⟨?_, ?_, ?_⟩
  · intro d cs ov fuel l hcs hov h c hc
    exact (chunkLoop_invariant d cs ov hcs hov fuel 0 0 l h).2.1 c hc
  · intro d m c hc
    exact packLoop_chunks m renderPara (pySplitBlank d) [] 0 0 c hc
  · intro d m c hc
    rw [chunk_by_headers,
      hdrLoop_eq_pack m (hdrSections d).length (hdrSections d) (le_refl _) [] 0 0] at hc
    exact packLoop_chunks m id (combineSections (hdrSections d)) [] 0 0 c hc

/-- C3 witness: the amended invariants evaluated on concrete runs of all
    three strategies. -/
theorem c3_segment_invariants_amended_witness :
    ((⟨0, 0, 1, ['a'], 0⟩ : ChunkInfo).start_char < (⟨0, 0, 1, ['a'], 0⟩ : ChunkInfo).end_char) ∧
      (0 ≤ (⟨0, 0, 3, ['a', '\n', '\n'], 0⟩ : ChunkInfo).start_char) ∧
      (0 ≤ (⟨0, 0, 1, ['x'], 0⟩ : ChunkInfo).start_char) := by
  refine ⟨?_, ?_, ?_⟩
  · exact ((c3_segment_invariants_amended.1 ['a', 'b'] 1 0 5
      [⟨0, 0, 1, ['a'], 0⟩, ⟨1, 1, 2, ['b'], 0⟩] (by decide) (by decide) (by rfl))
      ⟨0, 0, 1, ['a'], 0⟩ (by decide)).1
  · exact ((c3_segment_invariants_amended.2.1 ['a'] 50000)
      ⟨0, 0, 3, ['a', '\n', '\n'], 0⟩ (by decide)).1
  · exact ((c3_segment_invariants_amended.2.2 ['x'] 50000)
      ⟨0, 0, 1, ['x'], 0⟩ (by decide)).1

/-- C1 as amended: the chunk dispatch raises an error exactly when the
    strategy name is unknown; chunk_size and overlap are never validated
    (the known strategies never raise, whatever the parameters — the
    uniform strategy may instead fail to terminate, which is `none` here). -/
theorem c1_chunk_error_iff_unknown_strategy (fuel : Nat) (d : PyStr) (cs ov : Int)
    (strategy : String) :
    (∃ e, rlmChunk fuel d cs ov strategy = some (Except.error e)) ↔
      (strategy ≠ "uniform" ∧ strategy ≠ "paragraph" ∧ strategy ≠ "semantic") := by
  unfold rlmChunk
  by_cases h1 : strategy = "uniform"
  · rw [if_pos h1]
    constructor
    · rintro ⟨e, he⟩
      exfalso
      cases hcd : chunk_document fuel d cs ov with
      | none => rw [hcd] at he; simp at he
      | some l => rw [hcd] at he; simp at he
    · rintro ⟨ha, _⟩
      exact absurd h1 ha
  · rw [if_neg h1]
    by_cases h2 : strategy = "paragraph"
    · rw [if_pos h2]
      constructor
      · rintro ⟨e, he⟩
        simp at he
      · rintro ⟨_, hb, _⟩
        exact absurd h2 hb
    · rw [if_neg h2]
      by_cases h3 : strategy = "semantic"
      · rw [if_pos h3]
        constructor
        · rintro ⟨e, he⟩
          simp at he
        · rintro ⟨_, _, hc⟩
          exact absurd h3 hc
      · rw [if_neg h3]
        constructor
        · intro _
          exact ⟨h1, h2, h3⟩
        · intro _
          exact ⟨_, rfl⟩

/-- C8: for every match span within the document, the context window the
    search builds is exactly the substring from max(0, start-50) (which is
    the truncated subtraction start-50 on Nat) to min(len(document),
    end+50): clipping never reads outside the document. -/
theorem c8_search_context_clipped (d : PyStr) (ms : List (Nat × Nat))
    (hms : ∀ p ∈ ms, p.1 ≤ p.2 ∧ p.2 ≤ d.length) :
    ∀ mi ∈ searchModel d ms,
      mi.context =
        (d.drop (mi.mstart - 50)).take (min (mi.mend + 50) d.length - (mi.mstart - 50)) := by
  intro mi hmi
  obtain ⟨p, hp, rfl⟩ := List.mem_map.mp hmi
  obtain ⟨hse, hel⟩ := hms p hp
  show pySlice d (max 0 ((p.1 : Int) - 50)) ((p.2 : Int) + 50) =
    (d.drop (p.1 - 50)).take (min (p.2 + 50) d.length - (p.1 - 50))
  unfold pySlice pyIdx
  have hm1 : ¬ max 0 ((p.1 : Int) - 50) < 0 := by
    simp only [not_lt]
    exact le_max_left 0 _
  have hm2 : ¬ (p.2 : Int) + 50 < 0 := by omega
  rw [if_neg hm1, if_neg hm2]
  have ht1 : (max 0 ((p.1 : Int) - 50)).toNat = p.1 - 50 := by
    rcases le_total ((p.1 : Int) - 50) 0 with h | h
    · rw [max_eq_left h]
      omega
    · rw [max_eq_right h]
      omega
  have ht2 : ((p.2 : Int) + 50).toNat = p.2 + 50 := by omega
  rw [ht1, ht2]
  have hlo : min (p.1 - 50) d.length = p.1 - 50 := by
    apply min_eq_left
    omega
  rw [hlo, Nat.min_comm]

/-- C8 witness: the clipped context on a concrete document and match. -/
theorem c8_search_context_clipped_witness :
    (mkMatch ['a', 'b', 'c', 'd', 'e'] 1 2).context =
      ((['a', 'b', 'c', 'd', 'e'] : PyStr).drop (1 - 50)).take
        (min (2 + 50) (['a', 'b', 'c', 'd', 'e'] : PyStr).length - (1 - 50)) := by
  exact c8_search_context_clipped ['a', 'b', 'c', 'd', 'e'] [(1, 2)] (by decide)
    (mkMatch ['a', 'b', 'c', 'd', 'e'] 1 2) (List.mem_singleton.mpr rfl)

theorem renderAll_nil (render : PyStr → PyStr) : renderAll render [] = [] := rfl

theorem renderAll_append_one (render : PyStr → PyStr) (g : List PyStr) (u : PyStr) :
    renderAll render (g ++ [u]) = renderAll render g ++ render u := by
  simp [renderAll]

theorem renderAll_one (render : PyStr → PyStr) (u : PyStr) :
    renderAll render [u] = render u := by
  simp [renderAll]

theorem packGroups_ne_nil (m : Int) (render : PyStr → PyStr) :
    ∀ (us : List PyStr) (g : List PyStr), packGroups m render us g ≠ [] := by
  intro us
  induction us with
  | nil => intro g; simp [packGroups]
  | cons u us ih =>
    intro g
    rw [packGroups]
    split_ifs
    · simp
    · exact ih (g ++ [u])

theorem packGroups_join (m : Int) (render : PyStr → PyStr) :
    ∀ (us : List PyStr) (g : List PyStr),
      (packGroups m render us g).flatten = g ++ us := by
  intro us
  induction us with
  | nil => intro g; simp [packGroups]
  | cons u us ih =>
    intro g
    rw [packGroups]
    split_ifs
    · rw [List.flatten_cons, ih [u]]
      simp
    · rw [ih (g ++ [u])]
      simp

theorem emitted_cons (render : PyStr → PyStr) (g : List PyStr)
    (gs : List (List PyStr)) (h : gs ≠ []) :
    emitted render (g :: gs) = renderAll render g :: emitted render gs := by
  cases gs with
  | nil => exact absurd rfl h
  | cons g2 gs2 => rfl

/-- The packing loop emits exactly the rendered blocks that the grouping
    view records: every mid-loop block verbatim and the final block only
    when it strips to something non-empty. -/
theorem pack_eq_emitted (m : Int) (render : PyStr → PyStr) :
    ∀ (us : List PyStr) (g : List PyStr) (s idx : Nat),
      (packLoop m render us (renderAll render g) s idx).map ChunkInfo.content =
        emitted render (packGroups m render us g) := by
  intro us
  induction us with
  | nil =>
    intro g s idx
    rw [packLoop, packGroups, emitted]
    split_ifs
    · simp
    · simp
  | cons u us ih =>
    intro g s idx
    rw [packLoop, packGroups]
    split_ifs with hcond
    · rw [List.map_cons]
      rw [show render u = renderAll render [u] from (renderAll_one render u).symm]
      rw [ih [u]]
      rw [emitted_cons render g _ (packGroups_ne_nil m render us [u])]
    · rw [show renderAll render g ++ render u = renderAll render (g ++ [u]) from
        (renderAll_append_one render g u).symm]
      exact ih (g ++ [u]) s idx

/-- Any block that contains a unit longer than the bound renders to exactly
    that unit's rendering: oversized units are never combined with other
    content. -/
theorem packGroups_oversized (m : Int) (render : PyStr → PyStr)
    (hne : ∀ u : PyStr, u ≠ [] → render u ≠ [])
    (hlen : ∀ u : PyStr, u.length ≤ (render u).length) (hm : 0 < m) :
    ∀ (us : List PyStr) (g : List PyStr),
      (∀ u ∈ g, (m < (u.length : Int)) → renderAll render g = render u) →
      ∀ g2 ∈ packGroups m render us g, ∀ u ∈ g2, (m < (u.length : Int)) →
        renderAll render g2 = render u := by
  intro us
  induction us with
  | nil =>
    intro g hinv g2 hg2
    rw [packGroups] at hg2
    rcases List.mem_singleton.mp hg2 with rfl
    exact hinv
  | cons u us ih =>
    intro g hinv g2 hg2
    rw [packGroups] at hg2
    split_ifs at hg2 with hcond
    · rcases List.mem_cons.mp hg2 with rfl | hg2b
      · exact hinv
      · refine ih [u] ?_ g2 hg2b
        intro u2 hu2 _
        rcases List.mem_singleton.mp hu2 with rfl
        exact renderAll_one render u2
    · refine ih (g ++ [u]) ?_ g2 hg2
      intro u2 hu2 hbig
      rcases List.mem_append.mp hu2 with hu2g | hu2u
      · exfalso
        have hrg := hinv u2 hu2g hbig
        have hu2ne : u2 ≠ [] := by
          intro hnil
          subst hnil
          simp at hbig
          omega
        have hrne : renderAll render g ≠ [] := by
          rw [hrg]
          exact hne u2 hu2ne
        have hglen : (u2.length : Int) ≤ ((renderAll render g).length : Int) := by
          rw [hrg]
          exact_mod_cast hlen u2
        exact hcond ⟨by omega, hrne⟩
      · rcases List.mem_singleton.mp hu2u with rfl
        have hrg : renderAll render g = [] := by
          by_contra hrne
          exact hcond ⟨by omega, hrne⟩
        rw [renderAll_append_one, hrg, List.nil_append]

/-- C6 as amended: for both paragraph and semantic strategies with a
    positive size bound, the unit list is partitioned into consecutive
    blocks; the emitted segment contents are exactly the rendered blocks
    except that a final block that strips to nothing is dropped (so a unit
    can be missing from the output only inside that dropped whitespace-only
    tail, never split across segments); and a block containing a unit whose
    own size exceeds the bound renders to exactly that unit, never combined
    with other content. -/
theorem c6_units_never_split_amended (d : PyStr) (m : Int) (hm : 0 < m) :
    ((packGroups m renderPara (pySplitBlank d) []).flatten = pySplitBlank d ∧
      (chunk_by_paragraphs d m).map ChunkInfo.content =
        emitted renderPara (packGroups m renderPara (pySplitBlank d) []) ∧
      (∀ g ∈ packGroups m renderPara (pySplitBlank d) [], ∀ u ∈ g,
        (m < (u.length : Int)) → renderAll renderPara g = renderPara u)) ∧
    ((packGroups m id (combineSections (hdrSections d)) []).flatten =
        combineSections (hdrSections d) ∧
      (chunk_by_headers d m).map ChunkInfo.content =
        emitted id (packGroups m id (combineSections (hdrSections d)) []) ∧
      (∀ g ∈ packGroups m id (combineSections (hdrSections d)) [], ∀ u ∈ g,
        (m < (u.length : Int)) → renderAll id g = u)) := by
  refine ⟨⟨?_, ?_, ?_⟩, ⟨?_, ?_, ?_⟩⟩
  · rw [packGroups_join]
    simp
  · exact pack_eq_emitted m renderPara (pySplitBlank d) [] 0 0
  · refine packGroups_oversized m renderPara ?_ ?_ hm (pySplitBlank d) [] ?_
    · intro u _
      simp [renderPara]
    · intro u
      simp [renderPara]
    · intro u hu
      simp at hu
  · rw [packGroups_join]
    simp
  · rw [chunk_by_headers, hdrLoop_eq_pack m (hdrSections d).length (hdrSections d) (le_refl _)]
    exact pack_eq_emitted m id (combineSections (hdrSections d)) [] 0 0
  · have h := packGroups_oversized m id (fun u hu => hu) (fun u => le_refl _) hm
      (combineSections (hdrSections d)) [] (by intro u hu; simp at hu)
    intro g hg u hu hbig
    exact h g hg u hu hbig

/-- C6 witness: the amended statement instantiated on the document "a" with
    bound 10. -/
theorem c6_units_never_split_amended_witness :
    (packGroups 10 renderPara (pySplitBlank ['a']) []).flatten = pySplitBlank ['a'] ∧
      (chunk_by_paragraphs ['a'] 10).map ChunkInfo.content =
        emitted renderPara (packGroups 10 renderPara (pySplitBlank ['a']) []) :=
  ⟨(c6_units_never_split_amended ['a'] 10 (by decide)).1.1,
   (c6_units_never_split_amended ['a'] 10 (by decide)).1.2.1⟩


theorem hasNonWs_false_of_ws (l : PyStr) (h : ∀ c ∈ l, isPySpace c = true) :
    hasNonWs l = false := by
  rw [hasNonWs, List.any_eq_false]
  intro c hc
  simp [h c hc]

theorem countHashes_zero_of_ws (l : PyStr) (h : ∀ c ∈ l, isPySpace c = true) :
    countHashes l = 0 := by
  cases l with
  | nil => rfl
  | cons c rest =>
    have hc := h c (List.mem_cons_self c rest)
    have hne : (c == '#') = false := by
      apply beq_eq_false_iff_ne.mpr
      intro heq
      subst heq
      simp [isPySpace] at hc
    rw [countHashes, List.takeWhile_cons, hne]
    simp

theorem hdrMatchAt_none_of_ws (d : PyStr) (hws : ∀ c ∈ d, isPySpace c = true)
    (i : Nat) : hdrMatchAt d i = none := by
  rw [hdrMatchAt]
  have hz : countHashes (d.drop i) = 0 := by
    apply countHashes_zero_of_ws
    intro c hc
    exact hws c ((List.drop_subset i d) hc)
  rw [hz]
  simp

theorem scanHdrsGo_nil_of_ws (d : PyStr) (hws : ∀ c ∈ d, isPySpace c = true) :
    ∀ (l : PyStr) (pos skip : Nat), scanHdrsGo d l pos skip = [] := by
  intro l
  induction l with
  | nil => intro pos skip; rfl
  | cons c rest ih =>
    intro pos skip
    cases skip with
    | zero =>
      rw [scanHdrsGo, hdrMatchAt_none_of_ws d hws pos]
      split_ifs <;> exact ih (pos + 1) 0
    | succ k => rw [scanHdrsGo]; exact ih (pos + 1) k

theorem hdrSections_of_ws (d : PyStr) (hws : ∀ c ∈ d, isPySpace c = true) :
    hdrSections d = [d] := by
  rw [hdrSections, scanHdrs, scanHdrsGo_nil_of_ws d hws, splitByMatches, List.drop_zero]

/-- On an all-whitespace unit list whose total rendered length fits the
    bound, the paragraph packing emits nothing: no intermediate emission
    ever fires and the final all-whitespace block is dropped. -/
theorem packLoop_ws_nil (m : Int) :
    ∀ (us : List PyStr) (cur : PyStr) (s idx : Nat),
      (∀ u ∈ us, ∀ c ∈ u, isPySpace c = true) →
      (∀ c ∈ cur, isPySpace c = true) →
      (((cur.length + (us.map (fun u => u.length + 2)).sum : Nat) : Int) ≤ m) →
      packLoop m renderPara us cur s idx = [] := by
  intro us
  induction us with
  | nil =>
    intro cur s idx _ hcur _
    rw [packLoop, hasNonWs_false_of_ws cur hcur]
    simp
  | cons u us ih =>
    intro cur s idx hus hcur hsum
    have hsplit : ((u :: us).map (fun u => u.length + 2)).sum =
        u.length + 2 + (us.map (fun u => u.length + 2)).sum := by
      simp [List.sum_cons]
    rw [packLoop]
    rw [if_neg (by
      rintro ⟨hlt, _⟩
      have hnat : cur.length + u.length ≤
          cur.length + ((u :: us).map (fun u => u.length + 2)).sum := by
        rw [hsplit]
        omega
      have hcast : ((cur.length + u.length : Nat) : Int) ≤ m :=
        le_trans (by exact_mod_cast hnat) hsum
      push_cast at hcast
      omega)]
    apply ih
    · intro u2 hu2
      exact hus u2 (List.mem_cons_of_mem u hu2)
    · intro c hc
      rw [renderPara] at hc
      rcases List.mem_append.mp hc with hc1 | hc2
      · exact hcur c hc1
      · rcases List.mem_append.mp hc2 with hcu | hcn
        · exact hus u (List.mem_cons_self u us) c hcu
        · rcases List.mem_cons.mp hcn with rfl | hc3
          · rfl
          · rcases List.mem_singleton.mp hc3 with rfl
            rfl
    · have heq : (cur ++ renderPara u).length + (us.map (fun u => u.length + 2)).sum =
          cur.length + ((u :: us).map (fun u => u.length + 2)).sum := by
        rw [hsplit]
        simp [renderPara]
        omega
      rw [heq]
      exact hsum

/-- Units produced by the blank-line split of an all-whitespace document are
    all-whitespace. -/
theorem pySplitBlankAux_ws :
    ∀ (l cur : PyStr) (skip : Nat), (∀ c ∈ l, isPySpace c = true) →
      (∀ c ∈ cur, isPySpace c = true) →
      ∀ u ∈ pySplitBlankAux l cur skip, ∀ c ∈ u, isPySpace c = true := by
  intro l
  induction l with
  | nil =>
    intro cur skip _ hcur u hu c hc
    rw [pySplitBlankAux] at hu
    rcases List.mem_singleton.mp hu with rfl
    exact hcur c (List.mem_reverse.mp hc)
  | cons a rest ih =>
    intro cur skip hl hcur u hu c hc
    have hrest : ∀ c ∈ rest, isPySpace c = true :=
      fun c hc => hl c (List.mem_cons_of_mem a hc)
    have ha : isPySpace a = true := hl a (List.mem_cons_self a rest)
    cases skip with
    | succ k =>
      rw [pySplitBlankAux] at hu
      exact ih cur k hrest hcur u hu c hc
    | zero =>
      rw [pySplitBlankAux] at hu
      split_ifs at hu with h1 h2
      · exact ih (a :: cur) 0 hrest
          (by
            intro c2 hc2
            rcases List.mem_cons.mp hc2 with rfl | hc3
            · exact ha
            · exact hcur c2 hc3) u hu c hc
      · rcases List.mem_cons.mp hu with rfl | hu2
        · exact hcur c (List.mem_reverse.mp hc)
        · exact ih [] _ hrest (by intro c2 hc2; simp at hc2) u hu2 c hc
      · exact ih (a :: cur) 0 hrest
          (by
            intro c2 hc2
            rcases List.mem_cons.mp hc2 with rfl | hc3
            · exact ha
            · exact hcur c2 hc3) u hu c hc

/-- C10 as amended: the final accumulated block is emitted only when it has
    a non-whitespace character, so for an all-whitespace document the
    semantic strategy always returns no segments, and the paragraph strategy
    returns no segments provided the total accumulated length (units plus
    the two-character separators) fits max_size — the counterexample shows a
    small max_size can still force a whitespace-only mid-loop emission. -/
theorem c10_ws_documents_amended (d : PyStr) (m : Int)
    (hws : ∀ c ∈ d, isPySpace c = true) :
    chunk_by_headers d m = [] ∧
      ((((pySplitBlank d).map (fun u => u.length + 2)).sum : Nat) ≤ m →
        chunk_by_paragraphs d m = []) := by
  constructor
  · have hhdr : isHdrStart d = false := by
      rw [isHdrStart, countHashes_zero_of_ws d hws]
      simp
    have hcomb : combineSections [d] = [d] := by
      simp only [combineSections.eq_def, hhdr]
      simp
    rw [chunk_by_headers, hdrSections_of_ws d hws,
      hdrLoop_eq_pack m 1 [d] (by simp) [] 0 0, hcomb]
    rw [packLoop]
    rw [if_neg (by rintro ⟨_, hne⟩; exact hne rfl)]
    rw [List.nil_append, packLoop]
    rw [show id d = d from rfl, hasNonWs_false_of_ws d hws]
    simp
  · intro hsum
    rw [chunk_by_paragraphs]
    apply packLoop_ws_nil
    · exact pySplitBlankAux_ws d [] 0 hws (by intro c hc; simp at hc)
    · intro c hc
      simp at hc
    · simpa using hsum

/-- C10 witness: the all-whitespace one-space document with max size 10. -/
theorem c10_ws_documents_amended_witness :
    chunk_by_headers [' '] 10 = [] ∧ chunk_by_paragraphs [' '] 10 = [] :=
  ⟨(c10_ws_documents_amended [' '] 10 (by decide)).1,
   (c10_ws_documents_amended [' '] 10 (by decide)).2 (by decide)⟩

theorem prefixOne_iff (c : Char) (l : PyStr) :
    (([c] : PyStr).isPrefixOf l = true) ↔ l[0]? = some c := by
  cases l with
  | nil =>
    constructor
    · intro h
      rw [List.isPrefixOf_cons_nil] at h
      exact Bool.noConfusion h
    · intro h
      exact Option.noConfusion h
  | cons a t =>
    rw [List.isPrefixOf_cons₂, List.isPrefixOf_nil_left, Bool.and_true,
      List.getElem?_cons_zero]
    constructor
    · intro h
      rw [beq_iff_eq.mp h]
    · intro h
      exact beq_iff_eq.mpr (Option.some.inj h).symm

theorem prefixTwo_iff (c1 c2 : Char) (l : PyStr) :
    (([c1, c2] : PyStr).isPrefixOf l = true) ↔
      (l[0]? = some c1 ∧ l[1]? = some c2) := by
  cases l with
  | nil =>
    constructor
    · intro h
      rw [List.isPrefixOf_cons_nil] at h
      exact Bool.noConfusion h
    · rintro ⟨h, _⟩
      exact Option.noConfusion h
  | cons a t =>
    cases t with
    | nil =>
      constructor
      · intro h
        rw [List.isPrefixOf_cons₂, List.isPrefixOf_cons_nil, Bool.and_false] at h
        exact Bool.noConfusion h
      · rintro ⟨_, h⟩
        rw [List.getElem?_cons_succ] at h
        exact Option.noConfusion h
    | cons b t2 =>
      rw [List.isPrefixOf_cons₂, List.isPrefixOf_cons₂, List.isPrefixOf_nil_left,
        Bool.and_true, Bool.and_eq_true, List.getElem?_cons_zero,
        List.getElem?_cons_succ, List.getElem?_cons_zero]
      constructor
      · rintro ⟨h1, h2⟩
        exact ⟨by rw [beq_iff_eq.mp h1], by rw [beq_iff_eq.mp h2]⟩
      · rintro ⟨h1, h2⟩
        exact ⟨beq_iff_eq.mpr (Option.some.inj h1).symm,
          beq_iff_eq.mpr (Option.some.inj h2).symm⟩

theorem greatestHit_none_of (P : Nat → Prop) [DecidablePred P] (n : Nat)
    (h : ∀ i, ¬ P i) : greatestHit P n = none := by
  rw [greatestHit, if_neg (h _)]

theorem greatestHit_some_of (P : Nat → Prop) [DecidablePred P] (n v : Nat)
    (hv : P v) (hvn : v ≤ n) (hmax : ∀ j, P j → j ≤ v) :
    greatestHit P n = some v := by
  have h1 : P (Nat.findGreatest P n) := Nat.findGreatest_spec hvn hv
  have h2 : v ≤ Nat.findGreatest P n := Nat.le_findGreatest hvn hv
  have h3 : Nat.findGreatest P n ≤ v := hmax _ h1
  rw [greatestHit, if_pos h1]
  congr 1
  omega

/-- C5 as amended: for cuts whose segment start is non-negative, the code's
    refinement equals the claimed last-line-break / last-period-plus-space /
    hard-cut policy, except that the window bounds follow Python rfind index
    normalization (`pyIdx`) instead of the claimed `[p-200, p)`. -/
theorem c5_refine_characterization (d : PyStr) (start p : Int) (hs : 0 ≤ start) :
    refineEnd d start p = specRefineAmended d start p := by
  rw [refineEnd, specRefineAmended]
  by_cases h1 : start < pyRfind d ['\n'] (p - 200) p
  · rw [if_pos h1]
    rcases pyRfind_neg_or d ['\n'] (p - 200) p with hA | ⟨i, hA, hlo, hhi, hpre⟩
    · rw [hA] at h1
      omega
    · have hhi1 : i + 1 ≤ pyIdx d.length p := by simpa using hhi
      have hQi : d[i]? = some '\n' ∧ pyIdx d.length (p - 200) ≤ i ∧
          i + 1 ≤ pyIdx d.length p ∧ start < (i : Int) := by
        refine ⟨?_, hlo, hhi1, ?_⟩
        · have hg := (prefixOne_iff '\n' (d.drop i)).mp hpre
          rwa [List.getElem?_drop, Nat.add_zero] at hg
        · rw [hA] at h1
          exact h1
      have hmax : ∀ j, (d[j]? = some '\n' ∧ pyIdx d.length (p - 200) ≤ j ∧
          j + 1 ≤ pyIdx d.length p ∧ start < (j : Int)) → j ≤ i := by
        rintro j ⟨hj1, hj2, hj3, _⟩
        have hjp : (['\n'] : PyStr).isPrefixOf (d.drop j) = true := by
          rw [prefixOne_iff, List.getElem?_drop, Nat.add_zero]
          exact hj1
        have hge := pyRfind_ge d ['\n'] (p - 200) p j hj2 (by simpa using hj3) hjp
          (by simp)
        rw [hA] at hge
        exact_mod_cast hge
      have hin : i ≤ d.length := le_trans (by omega) (pyIdx_le d.length p)
      rw [greatestHit_some_of
        (fun i => d[i]? = some '\n' ∧ pyIdx d.length (p - 200) ≤ i ∧
          i + 1 ≤ pyIdx d.length p ∧ start < (i : Int)) d.length i hQi hin hmax, hA]
  · rw [if_neg h1]
    have hno1 : ∀ j : Nat, ¬ (d[j]? = some '\n' ∧ pyIdx d.length (p - 200) ≤ j ∧
        j + 1 ≤ pyIdx d.length p ∧ start < (j : Int)) := by
      rintro j ⟨hj1, hj2, hj3, hj4⟩
      have hjp : (['\n'] : PyStr).isPrefixOf (d.drop j) = true := by
        rw [prefixOne_iff, List.getElem?_drop, Nat.add_zero]
        exact hj1
      have hge := pyRfind_ge d ['\n'] (p - 200) p j hj2 (by simpa using hj3) hjp
        (by simp)
      omega
    rw [greatestHit_none_of
      (fun i => d[i]? = some '\n' ∧ pyIdx d.length (p - 200) ≤ i ∧
        i + 1 ≤ pyIdx d.length p ∧ start < (i : Int)) d.length hno1]
    by_cases h2 : start < pyRfind d ['.', ' '] (p - 200) p
    · rw [if_pos h2]
      rcases pyRfind_neg_or d ['.', ' '] (p - 200) p with hA | ⟨i, hA, hlo, hhi, hpre⟩
      · rw [hA] at h2
        omega
      · have hhi2 : i + 2 ≤ pyIdx d.length p := by simpa using hhi
        have hget := (prefixTwo_iff '.' ' ' (d.drop i)).mp hpre
        have hQi : d[i]? = some '.' ∧ d[i + 1]? = some ' ' ∧
            pyIdx d.length (p - 200) ≤ i ∧ i + 2 ≤ pyIdx d.length p ∧
            start < (i : Int) := by
          refine ⟨?_, ?_, hlo, hhi2, ?_⟩
          · have hg := hget.1
            rwa [List.getElem?_drop, Nat.add_zero] at hg
          · have hg := hget.2
            rwa [List.getElem?_drop] at hg
          · rw [hA] at h2
            exact h2
        have hmax : ∀ j, (d[j]? = some '.' ∧ d[j + 1]? = some ' ' ∧
            pyIdx d.length (p - 200) ≤ j ∧ j + 2 ≤ pyIdx d.length p ∧
            start < (j : Int)) → j ≤ i := by
          rintro j ⟨hj1, hj1b, hj2, hj3, _⟩
          have hjp : (['.', ' '] : PyStr).isPrefixOf (d.drop j) = true := by
            rw [prefixTwo_iff, List.getElem?_drop, List.getElem?_drop, Nat.add_zero]
            exact ⟨hj1, hj1b⟩
          have hge := pyRfind_ge d ['.', ' '] (p - 200) p j hj2 (by simpa using hj3)
            hjp (by simp)
          rw [hA] at hge
          exact_mod_cast hge
        have hin : i ≤ d.length := le_trans (by omega) (pyIdx_le d.length p)
        rw [greatestHit_some_of
          (fun i => d[i]? = some '.' ∧ d[i + 1]? = some ' ' ∧
            pyIdx d.length (p - 200) ≤ i ∧ i + 2 ≤ pyIdx d.length p ∧
            start < (i : Int)) d.length i hQi hin hmax, hA]
    · rw [if_neg h2]
      have hno2 : ∀ j : Nat, ¬ (d[j]? = some '.' ∧ d[j + 1]? = some ' ' ∧
          pyIdx d.length (p - 200) ≤ j ∧ j + 2 ≤ pyIdx d.length p ∧
          start < (j : Int)) := by
        rintro j ⟨hj1, hj1b, hj2, hj3, hj4⟩
        have hjp : (['.', ' '] : PyStr).isPrefixOf (d.drop j) = true := by
          rw [prefixTwo_iff, List.getElem?_drop, List.getElem?_drop, Nat.add_zero]
          exact ⟨hj1, hj1b⟩
        have hge := pyRfind_ge d ['.', ' '] (p - 200) p j hj2 (by simpa using hj3)
          hjp (by simp)
        omega
      rw [greatestHit_none_of
        (fun i => d[i]? = some '.' ∧ d[i + 1]? = some ' ' ∧
          pyIdx d.length (p - 200) ≤ i ∧ i + 2 ≤ pyIdx d.length p ∧
          start < (i : Int)) d.length hno2]

/-- C5 witness: the refinement characterization at a concrete cut. -/
theorem c5_refine_characterization_witness :
    refineEnd docWin 0 100 = specRefineAmended docWin 0 100 :=
  c5_refine_characterization docWin 0 100 (by decide)
